import Mathlib

/-!
# Verification of the life-hub aggregation core

Shallow embedding of the household-coordination client's algorithmic code:

* the grocery purchase-history aggregation in `src/components/GroceryList.tsx`
  (`previousWeekItems` and `frequentItems` query functions),
* the multi-entity search in the `Search` component,
* the task status cycling in `src/components/Tasks.tsx`,
* the change-password precondition checks in `src/components/Settings.tsx`.

Dates (the `week_start` column) are modelled as naturals with their usual
order; the remote store's `ORDER BY text ASC` is modelled as a stable sort
by byte-lexicographic string order; JavaScript's `Array.prototype.sort`
(stable per ES2019) is modelled by `List.insertionSort`, which places an
element before all later elements it ties with, exactly the stable-sort
contract.  JavaScript plain objects enumerate own keys with
`Object.entries` in a fixed order: keys that are canonical array indices
first, in ascending numeric order, then the remaining string keys in
insertion order; `jsEntries` reproduces this.
-/

/-- `String.prototype.toLowerCase()`, modelled character-wise so the
kernel can evaluate it. -/
def lowerStr (s : String) : String :=
  ⟨s.data.map Char.toLower⟩

/-- `String.prototype.trim()`: drop leading and trailing whitespace,
modelled character-wise. -/
def trimStr (s : String) : String :=
  ⟨((s.data.dropWhile Char.isWhitespace).reverse.dropWhile Char.isWhitespace).reverse⟩

/-- Lexicographic comparison of character lists by code point, the order
the store's `ORDER BY text ASC` is modelled with. -/
def leChars : List Char → List Char → Bool
  | [], _ => true
  | _ :: _, [] => false
  | a :: as, b :: bs => if a.toNat = b.toNat then leChars as bs else decide (a.toNat < b.toNat)

/-- Byte-lexicographic string order used to model `ORDER BY text ASC`. -/
def strLe (a b : String) : Bool :=
  leChars a.data b.data

/-- The numeric value of a list of decimal digits. -/
def digitsToNat (l : List Char) : Nat :=
  l.foldl (fun n c => n * 10 + (c.toNat - 48)) 0

/-- Parse a string as an unsigned decimal numeral (possibly with leading
zeros), as `String.toNat?` does, modelled character-wise. -/
def natOfDigits (s : String) : Option Nat :=
  if s.data ≠ [] ∧ s.data.all Char.isDigit then some (digitsToNat s.data) else none

/-- A row of the `list_history` collection, as read by the grocery
aggregation queries (`text`, `quantity`, `week_start`).  `weekStart` is the
date column, modelled as a natural number with the date order. -/
structure HistoryEntry where
  text : String
  quantity : Option String
  weekStart : Nat
deriving Repr, DecidableEq

/-- The `{text, quantity}` projection returned by the previous-week query. -/
structure WeekItem where
  text : String
  quantity : Option String
deriving Repr, DecidableEq

/-- Projection of a history row to the `text, quantity` columns selected by
the previous-week query. -/
def toWeekItem (e : HistoryEntry) : WeekItem :=
  ⟨e.text, e.quantity⟩

/-- The first select of the previous-week query:
`order('week_start', descending).limit(1).single()` returns the row with the
maximum `week_start`, and no row (the `!latestWeek` branch) when the history
is empty. -/
def maxWeekStart (h : List HistoryEntry) : Option Nat :=
  (h.map (·.weekStart)).max?

/-- The order on selected rows used to model `ORDER BY text ASC`. -/
def leText (a b : WeekItem) : Prop :=
  strLe a.text b.text = true

instance : DecidableRel leText :=
  fun a b => inferInstanceAs (Decidable (strLe a.text b.text = true))

/-- The store's `ORDER BY text ASC` on the selected rows, modelled as a
stable sort by the string order on `text`. -/
def sortByText (l : List WeekItem) : List WeekItem :=
  l.insertionSort leText

/-- The dedup pass of the previous-week query,
`self.filter((item, i, self) => i === self.findIndex(t => t.text.toLowerCase() === item.text.toLowerCase()))`:
keep exactly the first occurrence of each lower-cased text, in order.
`seen` accumulates the lower-cased texts already kept. -/
def dedupAux (seen : List String) : List WeekItem → List WeekItem
  | [] => []
  | x :: xs =>
    if seen.contains (lowerStr x.text) then dedupAux seen xs
    else x :: dedupAux (lowerStr x.text :: seen) xs

/-- Case-insensitive first-occurrence dedup, as performed by the
`filter`/`findIndex` pass of the previous-week query. -/
def jsDedup (l : List WeekItem) : List WeekItem :=
  dedupAux [] l

/-- The `previousWeekItems` query function of `GroceryList.tsx`: find the
most recent `week_start`; select the `text, quantity` of that week's rows
ordered by `text` ascending; deduplicate case-insensitively keeping first
occurrences. -/
def latestWeekItems (h : List HistoryEntry) : List WeekItem :=
  match maxWeekStart h with
  | none => []
  | some w => jsDedup (sortByText ((h.filter (·.weekStart == w)).map toWeekItem))

/-- The previous-week computation as the specification describes it: same
selection and dedup, but with *no* sort applied before deduplication, so
that the result order is the insertion order of first occurrences.  Stated
only to be compared against `latestWeekItems`, which is translated from the
source. -/
def latestWeekItemsSpec (h : List HistoryEntry) : List WeekItem :=
  match maxWeekStart h with
  | none => []
  | some w => jsDedup ((h.filter (·.weekStart == w)).map toWeekItem)

/-- The grouping key used by `frequentItems`: `text.toLowerCase().trim()`. -/
def lowerTrim (s : String) : String :=
  trimStr (lowerStr s)

/-- Number of history texts falling into the group keyed `k`. -/
def countOcc (ts : List String) (k : String) : Nat :=
  (ts.filter (fun t => lowerTrim t == k)).length

/-- One group accumulated by the `counts` / `textMap` objects of
`frequentItems`: the lower-cased trimmed key, its occurrence count, and the
trimmed original casing of its first occurrence. -/
structure FreqGroup where
  key : String
  count : Nat
  disp : String
deriving Repr, DecidableEq

/-- One step of the `historyData.forEach` loop of `frequentItems`: bump the
count for the key of `t` if present, otherwise create the group recording
`t.trim()` as its display casing.  (When the key was already present the
`if (!textMap[lowerText])` guard leaves the stored casing unchanged; the
one falsy stored value, the empty string, can only be overwritten by the
empty string again, so first-occurrence semantics is exact.) -/
def stepGroup (acc : List FreqGroup) (t : String) : List FreqGroup :=
  let key := lowerTrim t
  if acc.any (·.key == key) then
    acc.map (fun g => if g.key == key then { g with count := g.count + 1 } else g)
  else
    acc ++ [⟨key, 1, trimStr t⟩]

/-- The `counts` / `textMap` accumulation of `frequentItems` over the whole
history, groups listed in insertion (first-appearance) order of their keys. -/
def buildGroups (ts : List String) : List FreqGroup :=
  ts.foldl stepGroup []

/-- Whether a string is a canonical array-index key in the sense of
ECMAScript property enumeration: the decimal numeral of some `n < 2^32 - 1`
(no leading zeros, no sign). -/
def isArrayIndexKey (s : String) : Bool :=
  match natOfDigits s with
  | none => false
  | some n => Nat.repr n == s && n < 4294967295

/-- The numeric value of an array-index key (`0` for others; only applied
to array-index keys). -/
def keyNum (g : FreqGroup) : Nat :=
  (natOfDigits g.key).getD 0

/-- Ascending numeric order on array-index keys. -/
def leKeyNum (a b : FreqGroup) : Prop :=
  keyNum a ≤ keyNum b

instance : DecidableRel leKeyNum :=
  fun a b => inferInstanceAs (Decidable (keyNum a ≤ keyNum b))

/-- `Object.entries(counts)` enumeration order on a plain object: own keys
that are canonical array indices first, in ascending numeric order, then
the remaining keys in insertion order. -/
def jsEntries (gs : List FreqGroup) : List FreqGroup :=
  (gs.filter (fun g => isArrayIndexKey g.key)).insertionSort leKeyNum
    ++ gs.filter (fun g => !isArrayIndexKey g.key)

/-- Descending order by occurrence count, the comparator
`(a, b) => b[1] - a[1]`. -/
def geCount (a b : FreqGroup) : Prop :=
  b.count ≤ a.count

instance : DecidableRel geCount :=
  fun a b => inferInstanceAs (Decidable (b.count ≤ a.count))

/-- The `.sort((a, b) => b[1] - a[1])` pass: a stable sort descending by
count. -/
def sortByCountDesc (gs : List FreqGroup) : List FreqGroup :=
  gs.insertionSort geCount

/-- The group pipeline of `frequentItems`:
`Object.entries(counts).filter(([_, c]) => c >= 2).sort((a, b) => b[1] - a[1])`. -/
def frequentGroups (ts : List String) : List FreqGroup :=
  sortByCountDesc ((jsEntries (buildGroups ts)).filter (fun g => 2 ≤ g.count))

/-- The `frequentItems` query function of `GroceryList.tsx`: group all
history texts case-insensitively after trimming, keep counts ≥ 2, sort
descending by count, take the top 8, return the stored display casings. -/
def frequentItems (h : List HistoryEntry) : List String :=
  ((frequentGroups (h.map (·.text))).take 8).map (·.disp)

/-- `frequentItems` as the claim describes its tie-breaking: groups in
first-appearance order (plain insertion order, ignoring the array-index
enumeration rule), stable sort descending by count.  Stated only to be
compared against `frequentItems`, which is translated from the source. -/
def frequentItemsSpec (h : List HistoryEntry) : List String :=
  ((sortByCountDesc ((buildGroups (h.map (·.text))).filter (fun g => 2 ≤ g.count))).take 8).map
    (·.disp)

/-! ## The previous-week query as a stateful read (C9) -/

/-- The remote history table a grocery list's queries read, as seen through
the data gateway. -/
structure HistoryDB where
  rows : List HistoryEntry
deriving Repr, DecidableEq

/-- The first select of the `previousWeekItems` query function, as a
state-passing read: it returns the latest `week_start` and the store it ran
against. -/
def selectMaxWeek (db : HistoryDB) : Option Nat × HistoryDB :=
  (maxWeekStart db.rows, db)

/-- The second select of the `previousWeekItems` query function: the
`text, quantity` rows of week `w`, ordered by `text` ascending, with the
store it ran against. -/
def selectWeekRows (w : Nat) (db : HistoryDB) : List WeekItem × HistoryDB :=
  (sortByText ((db.rows.filter (·.weekStart == w)).map toWeekItem), db)

/-- The whole `previousWeekItems` query function run against a store: the
two selects in sequence followed by the in-memory dedup, returning the
result and the store left behind. -/
def runPreviousWeekQuery (db : HistoryDB) : List WeekItem × HistoryDB :=
  match selectMaxWeek db with
  | (none, db1) => ([], db1)
  | (some w, db1) =>
    let (rows, db2) := selectWeekRows w db1
    (jsDedup rows, db2)

/-! ## The search aggregator (`Search` component) -/

/-- Case-insensitive substring match: the model of the gateway's
`ilike('col', percent term percent)` filter, which the specification's
interface section describes as a case-insensitive substring pattern match.
`startsChars n h` checks that `n` is an initial segment of `h`. -/
def startsChars : List Char → List Char → Bool
  | [], _ => true
  | _ :: _, [] => false
  | a :: as, b :: bs => a == b && startsChars as bs

/-- Whether `n` occurs contiguously inside `h`. -/
def containsChars (n : List Char) : List Char → Bool
  | [] => n.isEmpty
  | c :: hs => startsChars n (c :: hs) || containsChars n hs

/-- `containsCI term s`: `s` matches `ilike` pattern `%term%`,
case-insensitively. -/
def containsCI (term s : String) : Bool :=
  containsChars (lowerStr term).data (lowerStr s).data

/-- A row of the `lists` collection, as selected by the search. -/
structure ListRow where
  id : String
  householdId : String
  type : String
deriving Repr, DecidableEq

/-- A row of the `list_items` collection, as selected by the search. -/
structure GroceryRow where
  id : String
  listId : String
  text : String
  quantity : Option String
deriving Repr, DecidableEq

/-- A row of the `notes` collection, as selected by the search. -/
structure NoteRow where
  id : String
  householdId : String
  content : String
  createdAt : String
deriving Repr, DecidableEq

/-- A row of the `events` collection, as selected by the search. -/
structure EventRow where
  id : String
  householdId : String
  title : String
  startTime : String
  allDay : Bool
deriving Repr, DecidableEq

/-- A row of the `tasks` collection, as selected by the search. -/
structure TaskRow where
  id : String
  householdId : String
  title : String
  priority : String
  dueDate : Option String
  status : String
deriving Repr, DecidableEq

/-- A `SearchResult` as assembled by the search query function. -/
structure SearchResult where
  id : String
  type : String
  title : String
  preview : Option String
  date : Option String
  priority : Option String
deriving Repr, DecidableEq

/-- The date renderings the search borrows from the `date-fns` `format`
calls, kept abstract: `noteDate` is `format(created_at, 'MMM d, yyyy')`,
`eventDate` and `eventDateTime` the all-day and timed event renderings, and
`taskDue` is `format(due_date, 'Due MMM d')`. -/
structure DateFmt where
  noteDate : String → String
  eventDate : String → String
  eventDateTime : String → String
  taskDue : String → String

/-- The outcome of each sub-collection fetch the search issues.  The data
gateway resolves every query with a `{ data, error }` pair and never
rejects: on failure `data` is null.  `.error` models a failed fetch (null
`data`), `.ok rows` a successful one returning the stored rows. -/
structure RemoteDB where
  lists : Except String (List ListRow)
  listItems : Except String (List GroceryRow)
  notes : Except String (List NoteRow)
  events : Except String (List EventRow)
  tasks : Except String (List TaskRow)

/-- The `{ data }` destructuring the search applies to a fetch: the query
`q` over the stored rows on success, null (`none`) on failure. -/
def sbData {α β : Type} (r : Except String (List α)) (q : List α → List β) :
    Option (List β) :=
  match r with
  | .error _ => none
  | .ok rows => some (q rows)

/-- The grocery contribution: find the household's first grocery list
(`limit(1)`), then up to 5 of its items whose text matches; each block is
skipped when its fetch returned null. -/
def groceryResults (hid term : String) (db : RemoteDB) : List SearchResult :=
  match sbData db.lists
      (fun rs => (rs.filter (fun l => l.householdId == hid && l.type == "grocery")).take 1) with
  | some (l :: _) =>
    match sbData db.listItems
        (fun rs => ((rs.filter (fun it => it.listId == l.id && containsCI term it.text)).take 5)) with
    | some items =>
      items.map (fun item =>
        ⟨item.id, "grocery", item.text,
          (item.quantity).map (fun q => "Quantity: " ++ q), none, none⟩)
    | none => []
  | _ => []

/-- The notes contribution: up to 5 content matches; the title is the
content truncated to 50 characters with an ellipsis marker when longer. -/
def noteResults (fmt : DateFmt) (hid term : String) (db : RemoteDB) : List SearchResult :=
  match sbData db.notes
      (fun rs => (rs.filter (fun n => n.householdId == hid && containsCI term n.content)).take 5) with
  | some ns =>
    ns.map (fun n =>
      ⟨n.id, "note",
        n.content.take 50 ++ (if 50 < n.content.length then "..." else ""),
        some (fmt.noteDate n.createdAt), some n.createdAt, none⟩)
  | none => []

/-- The events contribution: up to 5 title matches, previewed with the
date-only rendering for all-day events. -/
def eventResults (fmt : DateFmt) (hid term : String) (db : RemoteDB) : List SearchResult :=
  match sbData db.events
      (fun rs => (rs.filter (fun e => e.householdId == hid && containsCI term e.title)).take 5) with
  | some es =>
    es.map (fun e =>
      ⟨e.id, "event", e.title,
        some (if e.allDay then fmt.eventDate e.startTime else fmt.eventDateTime e.startTime),
        some e.startTime, none⟩)
  | none => []

/-- The tasks contribution: up to 5 title matches, previewed with the due
date or `"No due date"`. -/
def taskResults (fmt : DateFmt) (hid term : String) (db : RemoteDB) : List SearchResult :=
  match sbData db.tasks
      (fun rs => (rs.filter (fun t => t.householdId == hid && containsCI term t.title)).take 5) with
  | some ts =>
    ts.map (fun t =>
      ⟨t.id, "task", t.title,
        some (match t.dueDate with
              | some d => fmt.taskDue d
              | none => "No due date"),
        none, some t.priority⟩)
  | none => []

/-- The search query function of the `Search` component: empty when the raw
term is shorter than 2 characters (the `!searchTerm || searchTerm.length < 2`
guard), otherwise the four contributions concatenated in the fixed order
grocery, notes, events, tasks. -/
def searchQueryFn (fmt : DateFmt) (hid term : String) (db : RemoteDB) : List SearchResult :=
  if term.length < 2 then []
  else
    groceryResults hid term db ++ noteResults fmt hid term db
      ++ eventResults fmt hid term db ++ taskResults fmt hid term db

/-! ## Task status cycling (`Tasks.tsx`) -/

/-- A stored task as touched by the status-change handler. -/
structure TaskRec where
  id : String
  status : String
deriving Repr, DecidableEq

/-- `handleStatusChange`'s next-status computation: `'todo'` advances to
`'in-progress'`, `'in-progress'` to `'done'`, anything else resets to
`'todo'`. -/
def nextStatus (status : String) : String :=
  if status == "todo" then "in-progress"
  else if status == "in-progress" then "done"
  else "todo"

/-- The `update({status}).eq('id', taskId)` write issued by the status
mutation: set the status of every stored task with the given id. -/
def updateTaskStatus (tasks : List TaskRec) (taskId newStatus : String) : List TaskRec :=
  tasks.map (fun t => if t.id == taskId then { t with status := newStatus } else t)

/-- One click of the status button for task `t`: write `nextStatus` of the
task's current status. -/
def clickStatus (tasks : List TaskRec) (t : TaskRec) : List TaskRec :=
  updateTaskStatus tasks t.id (nextStatus t.status)

/-- Membership in the three-value status set. -/
def validStatus (s : String) : Bool :=
  s == "todo" || s == "in-progress" || s == "done"

/-! ## Change-password preconditions (`Settings.tsx`) -/

/-- The remote auth state the password mutation may touch; `calls` counts
network round trips. -/
structure AuthRemote where
  password : String
  calls : Nat
deriving Repr, DecidableEq

/-- The `supabase.auth.updateUser({password})` round trip: one network
call setting the remote password. -/
def authUpdateUser (p : String) (st : AuthRemote) : Except String Unit × AuthRemote :=
  (.ok (), ⟨p, st.calls + 1⟩)

/-- The `changePasswordMutation` function of `Settings.tsx`: check the
length and confirmation preconditions, and only if both pass run the remote
update `upd` (abstract, so the theorem covers any remote behaviour). -/
def changePasswordMutationFn (upd : String → AuthRemote → Except String Unit × AuthRemote)
    (newPassword confirmPassword : String) (st : AuthRemote) :
    Except String Unit × AuthRemote :=
  if newPassword.length < 6 then
    (.error "Password must be at least 6 characters", st)
  else if newPassword ≠ confirmPassword then
    (.error "Passwords do not match", st)
  else
    upd newPassword st

/-- Lookup of a group by key, the object indexing `counts[lowerText]`. -/
def findG (gs : List FreqGroup) (k : String) : Option FreqGroup :=
  gs.find? (·.key == k)

/-- The position of a result kind in the fixed concatenation order of the
search: grocery, notes, events, tasks. -/
def typeRank (t : String) : Nat :=
  if t == "grocery" then 0
  else if t == "note" then 1
  else if t == "event" then 2
  else 3

/-- A concrete date-formatter instance (rendering a date as itself), used
to evaluate the search on concrete inputs. -/
def rawFmt : DateFmt :=
  ⟨id, id, id, id⟩

/-- A concrete store: one grocery list of household `h1` holding the single
item `team work`, everything else empty, all fetches succeeding. -/
def dbTeamWork : RemoteDB :=
  ⟨.ok [⟨"l1", "h1", "grocery"⟩], .ok [⟨"i1", "l1", "team work", none⟩], .ok [], .ok [], .ok []⟩

/-- A concrete store in which the two grocery fetches fail while the notes
fetch succeeds with one matching note. -/
def dbGroceryDown : RemoteDB :=
  ⟨.error "boom", .error "boom", .ok [⟨"n1", "h1", "get milk", "2024-01-01"⟩], .ok [], .ok []⟩

/-! ## Order lemmas for the modelled sorts -/

theorem leChars_cons (a b : Char) (as bs : List Char) :
    leChars (a :: as) (b :: bs)
      = if a.toNat = b.toNat then leChars as bs else decide (a.toNat < b.toNat) :=
  rfl

theorem leChars_total (as bs : List Char) : leChars as bs = true ∨ leChars bs as = true := by
  induction as generalizing bs with
  | nil => exact Or.inl rfl
  | cons a as ih =>
    cases bs with
    | nil => exact Or.inr rfl
    | cons b bs =>
      by_cases h : a.toNat = b.toNat
      · rcases ih bs with h1 | h1
        · exact Or.inl (by rw [leChars_cons, if_pos h]; exact h1)
        · exact Or.inr (by rw [leChars_cons, if_pos h.symm]; exact h1)
      · rcases Nat.lt_or_ge a.toNat b.toNat with hlt | hge
        · exact Or.inl (by rw [leChars_cons, if_neg h]; simpa using hlt)
        · have hlt : b.toNat < a.toNat := lt_of_le_of_ne hge (fun e => h e.symm)
          exact Or.inr (by rw [leChars_cons, if_neg (fun e => h e.symm)]; simpa using hlt)

theorem leChars_trans (as bs cs : List Char) (h₁ : leChars as bs = true)
    (h₂ : leChars bs cs = true) : leChars as cs = true := by
  induction as generalizing bs cs with
  | nil => rfl
  | cons a as ih =>
    cases bs with
    | nil => simp [leChars] at h₁
    | cons b bs =>
      cases cs with
      | nil => simp [leChars] at h₂
      | cons c cs =>
        rw [leChars_cons] at h₁ h₂ ⊢
        by_cases hab : a.toNat = b.toNat <;> by_cases hbc : b.toNat = c.toNat
        · rw [if_pos hab] at h₁
          rw [if_pos hbc] at h₂
          rw [if_pos (hab.trans hbc)]
          exact ih bs cs h₁ h₂
        · rw [if_pos hab] at h₁
          rw [if_neg hbc] at h₂
          have hb : b.toNat < c.toNat := by simpa using h₂
          have hac : ¬ a.toNat = c.toNat := by omega
          rw [if_neg hac]
          simp only [decide_eq_true_eq]
          omega
        · rw [if_neg hab] at h₁
          rw [if_pos hbc] at h₂
          have ha : a.toNat < b.toNat := by simpa using h₁
          have hac : ¬ a.toNat = c.toNat := by omega
          rw [if_neg hac]
          simp only [decide_eq_true_eq]
          omega
        · rw [if_neg hab] at h₁
          rw [if_neg hbc] at h₂
          have ha : a.toNat < b.toNat := by simpa using h₁
          have hb : b.toNat < c.toNat := by simpa using h₂
          have hac : ¬ a.toNat = c.toNat := by omega
          rw [if_neg hac]
          simp only [decide_eq_true_eq]
          omega

instance : IsTotal WeekItem leText :=
  ⟨fun a b => leChars_total a.text.data b.text.data⟩

instance : IsTrans WeekItem leText :=
  ⟨fun a b c => leChars_trans a.text.data b.text.data c.text.data⟩

instance : IsTotal FreqGroup leKeyNum :=
  ⟨fun a b => Nat.le_total (keyNum a) (keyNum b)⟩

instance : IsTrans FreqGroup leKeyNum :=
  ⟨fun _ _ _ => Nat.le_trans⟩

instance : IsTotal FreqGroup geCount :=
  ⟨fun a b => Nat.le_total b.count a.count⟩

instance : IsTrans FreqGroup geCount :=
  ⟨fun _ _ _ h₁ h₂ => Nat.le_trans h₂ h₁⟩

/-! ## Dedup lemmas -/

theorem dedupAux_sublist (seen : List String) (l : List WeekItem) :
    List.Sublist (dedupAux seen l) l := by
  induction l generalizing seen with
  | nil => simp [dedupAux]
  | cons x xs ih =>
    simp only [dedupAux]
    by_cases h : seen.contains (lowerStr x.text) = true
    · rw [if_pos h]
      exact (ih seen).cons x
    · rw [if_neg h]
      exact (ih _).cons₂ x

theorem dedupAux_not_seen (seen : List String) (l : List WeekItem) :
    ∀ x ∈ dedupAux seen l, seen.contains (lowerStr x.text) = false := by
  induction l generalizing seen with
  | nil => intro x hx; simp [dedupAux] at hx
  | cons y ys ih =>
    intro x hx
    simp only [dedupAux] at hx
    by_cases h : seen.contains (lowerStr y.text) = true
    · rw [if_pos h] at hx
      exact ih seen x hx
    · rw [if_neg h] at hx
      rcases List.mem_cons.mp hx with he | hx
      · rw [he]
        exact Bool.eq_false_iff.mpr h
      · have := ih (lowerStr y.text :: seen) x hx
        simp only [List.contains_cons, Bool.or_eq_false_iff] at this
        exact this.2

theorem dedupAux_find? (seen : List String) (l : List WeekItem) :
    ∀ x ∈ dedupAux seen l,
      l.find? (fun y => lowerStr y.text == lowerStr x.text) = some x := by
  induction l generalizing seen with
  | nil => intro x hx; simp [dedupAux] at hx
  | cons y ys ih =>
    intro x hx
    simp only [dedupAux] at hx
    by_cases h : seen.contains (lowerStr y.text) = true
    · rw [if_pos h] at hx
      have hxs := dedupAux_not_seen seen ys x hx
      have hne : (lowerStr y.text == lowerStr x.text) = false := by
        simp only [beq_eq_false_iff_ne]
        intro he
        rw [← he] at hxs
        rw [hxs] at h
        exact Bool.false_ne_true h
      simp only [List.find?_cons, hne]
      exact ih seen x hx
    · rw [if_neg h] at hx
      rcases List.mem_cons.mp hx with he | hx
      · rw [he]
        simp [List.find?_cons]
      · have hxs := dedupAux_not_seen (lowerStr y.text :: seen) ys x hx
        simp only [List.contains_cons, Bool.or_eq_false_iff, beq_eq_false_iff_ne] at hxs
        have hne : (lowerStr y.text == lowerStr x.text) = false := by
          simp only [beq_eq_false_iff_ne]
          exact fun e => hxs.1 e.symm
        simp only [List.find?_cons, hne]
        exact ih _ x hx

theorem dedupAux_complete (seen : List String) (l : List WeekItem) :
    ∀ y ∈ l, seen.contains (lowerStr y.text) = true ∨
      ∃ x ∈ dedupAux seen l, lowerStr x.text = lowerStr y.text := by
  induction l generalizing seen with
  | nil => intro y hy; simp at hy
  | cons z zs ih =>
    intro y hy
    simp only [dedupAux]
    by_cases h : seen.contains (lowerStr z.text) = true
    · rw [if_pos h]
      rcases List.mem_cons.mp hy with he | hy
      · rw [he]
        exact Or.inl h
      · exact ih seen y hy
    · rw [if_neg h]
      rcases List.mem_cons.mp hy with he | hy
      · exact Or.inr ⟨z, List.mem_cons_self z _, by rw [he]⟩
      · rcases ih (lowerStr z.text :: seen) y hy with hc | ⟨x, hx, he⟩
        · simp only [List.contains_cons] at hc
          rcases Bool.or_eq_true_iff.mp hc with he | hc
          · exact Or.inr ⟨z, List.mem_cons_self z _, (beq_iff_eq.mp he).symm⟩
          · exact Or.inl hc
        · exact Or.inr ⟨x, List.mem_cons_of_mem z hx, he⟩

theorem dedupAux_pairwise_ne (seen : List String) (l : List WeekItem) :
    (dedupAux seen l).Pairwise (fun a b => lowerStr a.text ≠ lowerStr b.text) := by
  induction l generalizing seen with
  | nil => simp [dedupAux]
  | cons y ys ih =>
    simp only [dedupAux]
    by_cases h : seen.contains (lowerStr y.text) = true
    · rw [if_pos h]
      exact ih seen
    · rw [if_neg h]
      refine List.Pairwise.cons ?_ (ih _)
      intro b hb he
      have := dedupAux_not_seen (lowerStr y.text :: seen) ys b hb
      simp only [List.contains_cons, Bool.or_eq_false_iff, beq_eq_false_iff_ne] at this
      exact this.1 he.symm

/-! ## Lemmas about the `frequentItems` grouping fold -/

theorem countOcc_cons (t : String) (ts : List String) (k : String) :
    countOcc (t :: ts) k = (if lowerTrim t == k then 1 else 0) + countOcc ts k := by
  simp only [countOcc, List.filter_cons]
  by_cases h : (lowerTrim t == k) = true
  · rw [if_pos h, if_pos h, List.length_cons]
    omega
  · rw [if_neg h, if_neg h]
    simp

theorem findG_step (acc : List FreqGroup) (t k : String) :
    findG (stepGroup acc t) k =
      if k = lowerTrim t then
        match findG acc k with
        | some g => some { g with count := g.count + 1 }
        | none => some ⟨k, 1, trimStr t⟩
      else findG acc k := by
  simp only [stepGroup, findG]
  by_cases hmem : acc.any (fun g => g.key == lowerTrim t) = true
  · rw [if_pos hmem, List.find?_map]
    have hpred : ((fun g : FreqGroup => g.key == k) ∘
        (fun g => if g.key == lowerTrim t then { g with count := g.count + 1 } else g))
          = (fun g : FreqGroup => g.key == k) := by
      funext g
      by_cases hg : (g.key == lowerTrim t) = true
      · simp [Function.comp, hg]
      · simp [Function.comp, hg]
    rw [hpred]
    by_cases hk : k = lowerTrim t
    · rw [if_pos hk]
      cases hfind : acc.find? (fun g => g.key == k) with
      | none =>
        exfalso
        obtain ⟨g, hg, hgk⟩ := List.any_eq_true.mp hmem
        rw [← hk] at hgk
        exact List.find?_eq_none.mp hfind g hg hgk
      | some g =>
        have hgk := List.find?_some hfind
        have hcond : (g.key == lowerTrim t) = true := by
          simp only [beq_iff_eq] at hgk ⊢
          rw [hgk, hk]
        simp [Option.map, hcond]
    · rw [if_neg hk]
      cases hfind : acc.find? (fun g => g.key == k) with
      | none => simp
      | some g =>
        have hgk := List.find?_some hfind
        have hfalse : (g.key == lowerTrim t) = false := by
          simp only [beq_iff_eq] at hgk
          rw [hgk]
          exact beq_eq_false_iff_ne.mpr hk
        simp [Option.map, hfalse]
  · rw [if_neg hmem, List.find?_append]
    by_cases hk : k = lowerTrim t
    · have hnone : acc.find? (fun g => g.key == k) = none := by
        rw [List.find?_eq_none]
        intro g hg hgk
        rw [hk] at hgk
        exact hmem (List.any_eq_true.mpr ⟨g, hg, hgk⟩)
      have hone : List.find? (fun g => g.key == k) [(⟨lowerTrim t, 1, trimStr t⟩ : FreqGroup)]
          = some ⟨lowerTrim t, 1, trimStr t⟩ :=
        List.find?_cons_of_pos _ (by simp [beq_iff_eq, hk.symm])
      rw [if_pos hk, hnone, hone]
      simp [hk]
    · have hone : List.find? (fun g => g.key == k) [(⟨lowerTrim t, 1, trimStr t⟩ : FreqGroup)] = none := by
        refine List.find?_cons_of_neg _ ?_
        simp only [beq_iff_eq]
        exact fun e => hk e.symm
      rw [if_neg hk, hone, Option.or_none]

theorem findG_foldl (ts : List String) (acc : List FreqGroup) (k : String) :
    findG (ts.foldl stepGroup acc) k =
      match findG acc k with
      | some g => some { g with count := g.count + countOcc ts k }
      | none => (ts.find? (fun t => lowerTrim t == k)).map
          (fun t₀ => ⟨k, countOcc ts k, trimStr t₀⟩) := by
  induction ts generalizing acc with
  | nil =>
    cases hf : findG acc k with
    | none => simp [hf, countOcc]
    | some g => simp [hf, countOcc]
  | cons t ts ih =>
    rw [List.foldl_cons, ih (stepGroup acc t), findG_step]
    by_cases hk : k = lowerTrim t
    · have hbeq : (lowerTrim t == k) = true := beq_iff_eq.mpr hk.symm
      rw [if_pos hk]
      cases hf : findG acc k with
      | some g =>
        simp only [countOcc_cons, hbeq, if_true, Option.some.injEq, FreqGroup.mk.injEq,
          true_and, and_true]
        omega
      | none =>
        rw [@List.find?_cons_of_pos String (fun s => lowerTrim s == k) t ts hbeq]
        simp only [countOcc_cons, hbeq, if_true, Option.map_some, Option.some.injEq,
          FreqGroup.mk.injEq, true_and, and_true]
        simp
    · have hbeq : (lowerTrim t == k) = false := beq_eq_false_iff_ne.mpr (fun e => hk e.symm)
      rw [if_neg hk]
      cases hf : findG acc k with
      | some g =>
        simp [countOcc_cons, hbeq]
      | none =>
        rw [@List.find?_cons_of_neg String (fun s => lowerTrim s == k) t ts (by simp [hbeq])]
        simp [countOcc_cons, hbeq]

theorem keys_stepGroup (acc : List FreqGroup) (t : String) :
    (stepGroup acc t).map (·.key) =
      if acc.any (·.key == lowerTrim t) then acc.map (·.key)
      else acc.map (·.key) ++ [lowerTrim t] := by
  simp only [stepGroup]
  by_cases h : acc.any (fun g => g.key == lowerTrim t) = true
  · rw [if_pos h, if_pos h, List.map_map]
    apply List.map_congr_left
    intro g _
    by_cases hg : (g.key == lowerTrim t) = true
    · simp [Function.comp, hg]
    · simp [Function.comp, hg]
  · rw [if_neg h, if_neg h]
    simp

theorem nodupKeys_foldl (ts : List String) (acc : List FreqGroup)
    (h : (acc.map (·.key)).Nodup) : ((ts.foldl stepGroup acc).map (·.key)).Nodup := by
  induction ts generalizing acc with
  | nil => exact h
  | cons t ts ih =>
    rw [List.foldl_cons]
    apply ih
    rw [keys_stepGroup]
    by_cases hmem : acc.any (·.key == lowerTrim t) = true
    · rw [if_pos hmem]
      exact h
    · rw [if_neg hmem]
      refine List.Nodup.append h (List.nodup_singleton _) ?_
      intro a ha hb
      rcases List.mem_singleton.mp hb with rfl
      obtain ⟨g, hg, hgk⟩ := List.mem_map.mp ha
      exact hmem (List.any_eq_true.mpr ⟨g, hg, beq_iff_eq.mpr hgk⟩)

theorem mem_findG (gs : List FreqGroup) (g : FreqGroup)
    (hnd : (gs.map (·.key)).Nodup) (hg : g ∈ gs) : findG gs g.key = some g := by
  induction gs with
  | nil => simp at hg
  | cons a as ih =>
    rw [List.map_cons, List.nodup_cons] at hnd
    rcases List.mem_cons.mp hg with he | hg'
    · rw [he]
      simp [findG, List.find?_cons]
    · have hne : (a.key == g.key) = false := by
        refine beq_eq_false_iff_ne.mpr ?_
        intro he
        exact hnd.1 (he ▸ List.mem_map.mpr ⟨g, hg', rfl⟩)
      simp only [findG, List.find?_cons, hne]
      exact ih hnd.2 hg'

theorem mem_of_mem_jsEntries (gs : List FreqGroup) (g : FreqGroup)
    (hg : g ∈ jsEntries gs) : g ∈ gs := by
  simp only [jsEntries, List.mem_append] at hg
  rcases hg with hg | hg
  · exact (List.mem_filter.mp ((List.mem_insertionSort _).mp hg)).1
  · exact (List.mem_filter.mp hg).1

/-! ## Stability of the count sort -/

theorem filter_countEq_orderedInsert (c : Nat) (x : FreqGroup) (l : List FreqGroup) :
    (List.orderedInsert geCount x l).filter (fun g => g.count == c)
      = if x.count == c then x :: l.filter (fun g => g.count == c)
        else l.filter (fun g => g.count == c) := by
  rw [List.orderedInsert_eq_take_drop, List.filter_append, List.filter_cons]
  by_cases hx : (x.count == c) = true
  · rw [if_pos hx, if_pos hx]
    have htake : (l.takeWhile fun b => decide ¬ geCount x b).filter
        (fun g => g.count == c) = [] := by
      rw [List.filter_eq_nil_iff]
      intro a ha
      have hq := List.mem_takeWhile_imp ha
      simp only [decide_eq_true_eq, geCount, Nat.not_le] at hq
      simp only [beq_iff_eq] at hx ⊢
      omega
    rw [htake, List.nil_append]
    have hl : l.filter (fun g => g.count == c)
        = ((l.takeWhile fun b => decide ¬ geCount x b)
            ++ (l.dropWhile fun b => decide ¬ geCount x b)).filter (fun g => g.count == c) := by
      rw [List.takeWhile_append_dropWhile]
    rw [hl, List.filter_append, htake, List.nil_append]
  · rw [if_neg hx, if_neg hx]
    have hl : l.filter (fun g => g.count == c)
        = ((l.takeWhile fun b => decide ¬ geCount x b)
            ++ (l.dropWhile fun b => decide ¬ geCount x b)).filter (fun g => g.count == c) := by
      rw [List.takeWhile_append_dropWhile]
    rw [hl, List.filter_append]

theorem filter_countEq_sortByCountDesc (c : Nat) (l : List FreqGroup) :
    (sortByCountDesc l).filter (fun g => g.count == c)
      = l.filter (fun g => g.count == c) := by
  induction l with
  | nil => rfl
  | cons x xs ih =>
    simp only [sortByCountDesc, List.insertionSort] at ih ⊢
    rw [filter_countEq_orderedInsert, List.filter_cons]
    by_cases hx : (x.count == c) = true
    · rw [if_pos hx, if_pos hx, ih]
    · rw [if_neg hx, if_neg hx, ih]

theorem sorted_sortByCountDesc (l : List FreqGroup) :
    (sortByCountDesc l).Pairwise geCount :=
  List.sorted_insertionSort geCount l

theorem sorted_sortByText (l : List WeekItem) :
    (sortByText l).Pairwise leText :=
  List.sorted_insertionSort leText l

theorem mem_sortByCountDesc {l : List FreqGroup} {g : FreqGroup} :
    g ∈ sortByCountDesc l ↔ g ∈ l :=
  List.mem_insertionSort geCount

theorem mem_sortByText {l : List WeekItem} {x : WeekItem} :
    x ∈ sortByText l ↔ x ∈ l :=
  List.mem_insertionSort leText

/-- When no group key is an array-index string, the `Object.entries`
enumeration is plain insertion order. -/
theorem jsEntries_of_no_index_keys (gs : List FreqGroup)
    (h : ∀ g ∈ gs, isArrayIndexKey g.key = false) : jsEntries gs = gs := by
  have h1 : gs.filter (fun g => isArrayIndexKey g.key) = [] := by
    rw [List.filter_eq_nil_iff]
    intro a ha
    simp [h a ha]
  have h2 : gs.filter (fun g => !isArrayIndexKey g.key) = gs := by
    rw [List.filter_eq_self]
    intro a ha
    simp [h a ha]
  rw [jsEntries, h1, h2]
  rfl

/-! ## The week maximum -/

theorem maxWeekStart_spec (h : List HistoryEntry) (w : Nat)
    (hw : maxWeekStart h = some w) :
    w ∈ h.map (·.weekStart) ∧ ∀ e ∈ h, e.weekStart ≤ w := by
  rw [maxWeekStart, List.max?_eq_some_iff (fun a => Nat.le_refl a)
    (fun a b => max_choice a b) (fun a b c => Nat.max_le)] at hw
  exact ⟨hw.1, fun e he => hw.2 e.weekStart (List.mem_map.mpr ⟨e, he, rfl⟩)⟩

theorem maxWeekStart_nil : maxWeekStart [] = none := rfl

/-! ## Claim theorems: grocery history aggregation -/

/-- C1, counterexample: the previous-week computation does apply a sort
(`order('text', ascending)`) before deduplicating, so with the week's rows
stored in insertion order `b`, `a` the result is `a`, `b`, not the
insertion order of first occurrences demanded by the claim (computed by
`latestWeekItemsSpec`). -/
theorem previousWeek_insertion_order_refuted :
    latestWeekItems [⟨"b", none, 5⟩, ⟨"a", none, 5⟩] = [⟨"a", none⟩, ⟨"b", none⟩] ∧
    latestWeekItemsSpec [⟨"b", none, 5⟩, ⟨"a", none, 5⟩] = [⟨"b", none⟩, ⟨"a", none⟩] ∧
    latestWeekItems [⟨"b", none, 5⟩, ⟨"a", none, 5⟩]
      ≠ latestWeekItemsSpec [⟨"b", none, 5⟩, ⟨"a", none, 5⟩] :=
  ⟨by decide, by decide, by decide⟩

/-- C1, amended: for every non-empty history, the previous-week result is
the most recent week's rows sorted ascending by text and then deduplicated
by case-insensitive text keeping the first occurrence in that *sorted*
order: the result is sorted by text, contains no two case-equal texts, each
returned row is the first sorted row bearing its case-folded text, and
every sorted row's case-folded text is represented. -/
theorem previousWeek_sorted_dedup (h : List HistoryEntry) (w : Nat)
    (hw : maxWeekStart h = some w) :
    latestWeekItems h
        = jsDedup (sortByText ((h.filter (·.weekStart == w)).map toWeekItem)) ∧
    (latestWeekItems h).Pairwise leText ∧
    (latestWeekItems h).Pairwise (fun a b => lowerStr a.text ≠ lowerStr b.text) ∧
    (∀ x ∈ latestWeekItems h,
      (sortByText ((h.filter (·.weekStart == w)).map toWeekItem)).find?
        (fun y => lowerStr y.text == lowerStr x.text) = some x) ∧
    (∀ y ∈ sortByText ((h.filter (·.weekStart == w)).map toWeekItem),
      ∃ x ∈ latestWeekItems h, lowerStr x.text = lowerStr y.text) := by
  have hunf : latestWeekItems h
      = jsDedup (sortByText ((h.filter (·.weekStart == w)).map toWeekItem)) := by
    simp only [latestWeekItems, hw]
  refine ⟨hunf, ?_, ?_, ?_, ?_⟩
  · rw [hunf]
    exact List.Pairwise.sublist (dedupAux_sublist [] _) (sorted_sortByText _)
  · rw [hunf]
    exact dedupAux_pairwise_ne [] _
  · rw [hunf]
    exact dedupAux_find? [] _
  · rw [hunf]
    intro y hy
    rcases dedupAux_complete [] _ y hy with hc | hok
    · simp [List.contains] at hc
    · exact hok

/-- C1, witness for the amended theorem at a concrete history. -/
theorem previousWeek_sorted_dedup_witness :
    maxWeekStart [⟨"Milk", none, 1⟩, ⟨"milk", none, 1⟩, ⟨"Eggs", none, 0⟩] = some 1 ∧
    ((latestWeekItems [⟨"Milk", none, 1⟩, ⟨"milk", none, 1⟩, ⟨"Eggs", none, 0⟩]
        = jsDedup (sortByText (([⟨"Milk", none, 1⟩, ⟨"milk", none, 1⟩,
            ⟨"Eggs", none, 0⟩].filter (·.weekStart == 1)).map toWeekItem))) ∧
      (latestWeekItems [⟨"Milk", none, 1⟩, ⟨"milk", none, 1⟩,
        ⟨"Eggs", none, 0⟩]).Pairwise leText ∧
      (latestWeekItems [⟨"Milk", none, 1⟩, ⟨"milk", none, 1⟩,
        ⟨"Eggs", none, 0⟩]).Pairwise (fun a b => lowerStr a.text ≠ lowerStr b.text) ∧
      (∀ x ∈ latestWeekItems [⟨"Milk", none, 1⟩, ⟨"milk", none, 1⟩, ⟨"Eggs", none, 0⟩],
        (sortByText (([⟨"Milk", none, 1⟩, ⟨"milk", none, 1⟩,
            ⟨"Eggs", none, 0⟩].filter (·.weekStart == 1)).map toWeekItem)).find?
          (fun y => lowerStr y.text == lowerStr x.text) = some x) ∧
      (∀ y ∈ sortByText (([⟨"Milk", none, 1⟩, ⟨"milk", none, 1⟩,
          ⟨"Eggs", none, 0⟩].filter (·.weekStart == 1)).map toWeekItem),
        ∃ x ∈ latestWeekItems [⟨"Milk", none, 1⟩, ⟨"milk", none, 1⟩, ⟨"Eggs", none, 0⟩],
          lowerStr x.text = lowerStr y.text)) :=
  ⟨by decide, previousWeek_sorted_dedup _ 1 (by decide)⟩

/-- C9: the previous-week query is a pure read: it leaves the store
untouched, its value is a function of the store's rows alone, and running
it a second time returns the identical result. -/
theorem previousWeek_pure (db : HistoryDB) :
    (runPreviousWeekQuery db).2 = db ∧
    (runPreviousWeekQuery db).1 = latestWeekItems db.rows ∧
    runPreviousWeekQuery ((runPreviousWeekQuery db).2) = runPreviousWeekQuery db := by
  cases hm : maxWeekStart db.rows with
  | none =>
    simp [runPreviousWeekQuery, selectMaxWeek, selectWeekRows, latestWeekItems, hm]
  | some w =>
    simp [runPreviousWeekQuery, selectMaxWeek, selectWeekRows, latestWeekItems, hm]

/-- C6: the previous-week computation selects exactly the entries whose
`weekStart` is the maximum present: on an empty history both operations
return empty, and for a non-empty history the selected week is the maximum
and the result's rows are exactly (up to case-insensitive dedup) the rows
of that week. -/
theorem weekSelection_max :
    (latestWeekItems [] = [] ∧ frequentItems [] = []) ∧
    ∀ h w, maxWeekStart h = some w →
      w ∈ h.map (·.weekStart) ∧ (∀ e ∈ h, e.weekStart ≤ w) ∧
      (∀ x ∈ latestWeekItems h,
        ∃ e ∈ h, e.weekStart = w ∧ x.text = e.text ∧ x.quantity = e.quantity) ∧
      (∀ e ∈ h, e.weekStart = w →
        ∃ x ∈ latestWeekItems h, lowerStr x.text = lowerStr e.text) := by
  refine ⟨⟨rfl, rfl⟩, ?_⟩
  intro h w hw
  obtain ⟨hmem, hle⟩ := maxWeekStart_spec h w hw
  have hunf : latestWeekItems h
      = jsDedup (sortByText ((h.filter (·.weekStart == w)).map toWeekItem)) := by
    simp only [latestWeekItems, hw]
  refine ⟨hmem, hle, ?_, ?_⟩
  · intro x hx
    rw [hunf] at hx
    have hx₁ := (dedupAux_sublist [] _).mem hx
    have hx₂ := mem_sortByText.mp hx₁
    obtain ⟨e, hef, hex⟩ := List.mem_map.mp hx₂
    obtain ⟨heh, hew⟩ := List.mem_filter.mp hef
    exact ⟨e, heh, by simpa using hew, by rw [← hex]; rfl, by rw [← hex]; rfl⟩
  · intro e he hew
    have hef : toWeekItem e ∈ (h.filter (·.weekStart == w)).map toWeekItem :=
      List.mem_map.mpr ⟨e, List.mem_filter.mpr ⟨he, by simpa using hew⟩, rfl⟩
    have hes : toWeekItem e ∈ sortByText ((h.filter (·.weekStart == w)).map toWeekItem) :=
      mem_sortByText.mpr hef
    rcases dedupAux_complete [] _ (toWeekItem e) hes with hc | ⟨x, hx, hxe⟩
    · simp [List.contains] at hc
    · rw [hunf]
      exact ⟨x, hx, hxe⟩

/-- C6, witness at a concrete two-week history. -/
theorem weekSelection_max_witness :
    maxWeekStart [⟨"Milk", none, 1⟩, ⟨"milk", none, 1⟩, ⟨"Eggs", none, 0⟩] = some 1 ∧
    (1 ∈ [⟨"Milk", none, 1⟩, ⟨"milk", none, 1⟩,
        (⟨"Eggs", none, 0⟩ : HistoryEntry)].map (·.weekStart) ∧
      (∀ e ∈ [⟨"Milk", none, 1⟩, ⟨"milk", none, 1⟩, (⟨"Eggs", none, 0⟩ : HistoryEntry)],
        e.weekStart ≤ 1) ∧
      (∀ x ∈ latestWeekItems [⟨"Milk", none, 1⟩, ⟨"milk", none, 1⟩, ⟨"Eggs", none, 0⟩],
        ∃ e ∈ [⟨"Milk", none, 1⟩, ⟨"milk", none, 1⟩, (⟨"Eggs", none, 0⟩ : HistoryEntry)],
          e.weekStart = 1 ∧ x.text = e.text ∧ x.quantity = e.quantity) ∧
      (∀ e ∈ [⟨"Milk", none, 1⟩, ⟨"milk", none, 1⟩, (⟨"Eggs", none, 0⟩ : HistoryEntry)],
        e.weekStart = 1 →
          ∃ x ∈ latestWeekItems [⟨"Milk", none, 1⟩, ⟨"milk", none, 1⟩, ⟨"Eggs", none, 0⟩],
            lowerStr x.text = lowerStr e.text)) :=
  ⟨by decide, weekSelection_max.2 _ 1 (by decide)⟩

/-- C4: `frequentItems` groups the whole history by case-insensitive
trimmed text, keeps only groups occurring at least twice, returns at most 8
entries, and each returned string is the trimmed display casing of its
group's first-seen occurrence (counts are dropped: the result is a bare
list of strings). -/
theorem frequent_grouping (h : List HistoryEntry) :
    (frequentItems h).length ≤ 8 ∧
    ∀ s ∈ frequentItems h, ∃ k t₀,
      (h.map (·.text)).find? (fun t => lowerTrim t == k) = some t₀ ∧
      s = trimStr t₀ ∧ lowerTrim t₀ = k ∧
      2 ≤ countOcc (h.map (·.text)) k := by
  constructor
  · rw [frequentItems, List.length_map]
    exact List.length_take_le 8 _
  · intro s hs
    rw [frequentItems] at hs
    obtain ⟨g, hgmem, hgs⟩ := List.mem_map.mp hs
    have hg1 : g ∈ frequentGroups (h.map (·.text)) := List.mem_of_mem_take hgmem
    rw [frequentGroups] at hg1
    have hg3 := List.mem_filter.mp (mem_sortByCountDesc.mp hg1)
    have hgcnt : 2 ≤ g.count := by simpa using hg3.2
    have hg4 : g ∈ buildGroups (h.map (·.text)) := mem_of_mem_jsEntries _ _ hg3.1
    have hnd := nodupKeys_foldl (h.map (·.text)) [] (by simp)
    have hfind := mem_findG _ g hnd hg4
    simp only [buildGroups] at hfind
    rw [findG_foldl] at hfind
    simp only [findG, List.find?_nil, Option.map_eq_some'] at hfind
    obtain ⟨t₀, hfind₀, hmk⟩ := hfind
    have hkey := List.find?_some hfind₀
    refine ⟨g.key, t₀, hfind₀, ?_, beq_iff_eq.mp hkey, ?_⟩
    · rw [← hgs, ← hmk]
    · have : g.count = countOcc (h.map (·.text)) g.key := by
        rw [← hmk]
      omega

/-- C4, witness at a concrete history with a trimmed, case-varying group. -/
theorem frequent_grouping_witness :
    (frequentItems [⟨"Bread", none, 0⟩, ⟨"Bread", none, 0⟩, ⟨"milk ", none, 0⟩,
        ⟨"Milk", none, 0⟩, ⟨"Eggs", none, 0⟩]).length ≤ 8 ∧
    "milk" ∈ frequentItems [⟨"Bread", none, 0⟩, ⟨"Bread", none, 0⟩, ⟨"milk ", none, 0⟩,
        ⟨"Milk", none, 0⟩, ⟨"Eggs", none, 0⟩] ∧
    (∃ k t₀,
      ([⟨"Bread", none, 0⟩, ⟨"Bread", none, 0⟩, ⟨"milk ", none, 0⟩, ⟨"Milk", none, 0⟩,
          (⟨"Eggs", none, 0⟩ : HistoryEntry)].map (·.text)).find?
        (fun t => lowerTrim t == k) = some t₀ ∧
      "milk" = trimStr t₀ ∧ lowerTrim t₀ = k ∧
      2 ≤ countOcc ([⟨"Bread", none, 0⟩, ⟨"Bread", none, 0⟩, ⟨"milk ", none, 0⟩,
          ⟨"Milk", none, 0⟩, (⟨"Eggs", none, 0⟩ : HistoryEntry)].map (·.text)) k) :=
  ⟨(frequent_grouping _).1, by decide,
    (frequent_grouping _).2 "milk" (by decide)⟩

/-- C5, counterexample: `Object.entries` enumerates integer-like keys
first, so with the history `b`, `b`, `2`, `2` (both groups counted twice)
the code returns `2`, `b` although the first-appearance tie-break demanded
by the claim (computed by `frequentItemsSpec`) yields `b`, `2`. -/
theorem frequentTie_counterexample :
    frequentItems [⟨"b", none, 0⟩, ⟨"b", none, 0⟩, ⟨"2", none, 0⟩, ⟨"2", none, 0⟩]
      = ["2", "b"] ∧
    frequentItemsSpec [⟨"b", none, 0⟩, ⟨"b", none, 0⟩, ⟨"2", none, 0⟩, ⟨"2", none, 0⟩]
      = ["b", "2"] ∧
    frequentItems [⟨"b", none, 0⟩, ⟨"b", none, 0⟩, ⟨"2", none, 0⟩, ⟨"2", none, 0⟩]
      ≠ frequentItemsSpec [⟨"b", none, 0⟩, ⟨"b", none, 0⟩, ⟨"2", none, 0⟩, ⟨"2", none, 0⟩] :=
  ⟨by decide, by decide, by decide⟩

/-- C5, amended: the `frequentItems` list is sorted descending by
occurrence count with ties in original first-appearance order *provided*
no group key is a canonical array-index string (integer-like texts such as
`"2"` are enumerated first by `Object.entries` and so jump the queue):
under that proviso the result equals the claim's stable first-appearance
computation, the group pipeline is sorted descending by count, and each
count class keeps its original relative order. -/
theorem frequentTie_stable (h : List HistoryEntry)
    (hidx : ∀ g ∈ buildGroups (h.map (·.text)), isArrayIndexKey g.key = false) :
    frequentItems h = frequentItemsSpec h ∧
    (frequentGroups (h.map (·.text))).Pairwise geCount ∧
    ∀ c, (frequentGroups (h.map (·.text))).filter (fun g => g.count == c)
        = ((buildGroups (h.map (·.text))).filter (fun g => 2 ≤ g.count)).filter
            (fun g => g.count == c) := by
  have hje := jsEntries_of_no_index_keys _ hidx
  refine ⟨?_, ?_, ?_⟩
  · rw [frequentItems, frequentItemsSpec, frequentGroups, hje]
  · rw [frequentGroups]
    exact sorted_sortByCountDesc _
  · intro c
    rw [frequentGroups, hje, filter_countEq_sortByCountDesc]

/-- C5, witness for the amended theorem at a concrete history with a tie. -/
theorem frequentTie_stable_witness :
    (∀ g ∈ buildGroups ([⟨"Bread", none, 0⟩, ⟨"Bread", none, 0⟩, ⟨"milk", none, 0⟩,
        ⟨"Milk", none, 0⟩, ⟨"Eggs", none, 0⟩, (⟨"Eggs", none, 0⟩ : HistoryEntry)].map
          (·.text)), isArrayIndexKey g.key = false) ∧
    (frequentItems [⟨"Bread", none, 0⟩, ⟨"Bread", none, 0⟩, ⟨"milk", none, 0⟩,
          ⟨"Milk", none, 0⟩, ⟨"Eggs", none, 0⟩, ⟨"Eggs", none, 0⟩]
        = frequentItemsSpec [⟨"Bread", none, 0⟩, ⟨"Bread", none, 0⟩, ⟨"milk", none, 0⟩,
          ⟨"Milk", none, 0⟩, ⟨"Eggs", none, 0⟩, ⟨"Eggs", none, 0⟩] ∧
      (frequentGroups ([⟨"Bread", none, 0⟩, ⟨"Bread", none, 0⟩, ⟨"milk", none, 0⟩,
          ⟨"Milk", none, 0⟩, ⟨"Eggs", none, 0⟩, (⟨"Eggs", none, 0⟩ : HistoryEntry)].map
            (·.text))).Pairwise geCount ∧
      ∀ c, (frequentGroups ([⟨"Bread", none, 0⟩, ⟨"Bread", none, 0⟩, ⟨"milk", none, 0⟩,
            ⟨"Milk", none, 0⟩, ⟨"Eggs", none, 0⟩, (⟨"Eggs", none, 0⟩ : HistoryEntry)].map
              (·.text))).filter (fun g => g.count == c)
          = ((buildGroups ([⟨"Bread", none, 0⟩, ⟨"Bread", none, 0⟩, ⟨"milk", none, 0⟩,
              ⟨"Milk", none, 0⟩, ⟨"Eggs", none, 0⟩, (⟨"Eggs", none, 0⟩ : HistoryEntry)].map
                (·.text))).filter (fun g => 2 ≤ g.count)).filter
              (fun g => g.count == c)) :=
  ⟨by decide, frequentTie_stable _ (by decide)⟩

/-! ## Claim theorems: tasks, settings, search -/

/-- Helper: the next status always lands in the three-value set. -/
theorem validStatus_nextStatus (s : String) : validStatus (nextStatus s) = true := by
  by_cases h1 : s = "todo"
  · simp [nextStatus, validStatus, h1]
  · by_cases h2 : s = "in-progress"
    · simp [nextStatus, validStatus, h1, h2]
    · simp [nextStatus, validStatus, h1, h2]

/-- C10: the status-change handler writes exactly one of `todo`,
`in-progress`, `done`, cyclically: `todo` advances to `in-progress`,
`in-progress` to `done`, anything else (including `done`) resets to
`todo`; hence a store of valid statuses stays valid under clicks. -/
theorem taskStatus_cycle :
    (nextStatus "todo" = "in-progress" ∧ nextStatus "in-progress" = "done" ∧
      nextStatus "done" = "todo") ∧
    (∀ s, s ≠ "todo" → s ≠ "in-progress" → nextStatus s = "todo") ∧
    (∀ s, validStatus (nextStatus s) = true) ∧
    (∀ tasks t, (∀ u ∈ tasks, validStatus u.status = true) →
      ∀ u ∈ clickStatus tasks t, validStatus u.status = true) := by
  refine ⟨⟨by decide, by decide, by decide⟩, ?_, validStatus_nextStatus, ?_⟩
  · intro s h1 h2
    simp [nextStatus, h1, h2]
  · intro tasks t hall u hu
    simp only [clickStatus, updateTaskStatus] at hu
    obtain ⟨v, hv, hvu⟩ := List.mem_map.mp hu
    by_cases hid : (v.id == t.id) = true
    · rw [if_pos hid] at hvu
      rw [← hvu]
      exact validStatus_nextStatus t.status
    · rw [if_neg hid] at hvu
      rw [← hvu]
      exact hall v hv

/-- C10, witness: a non-standard status resets to `todo`, and a click on a
valid store keeps every stored status valid. -/
theorem taskStatus_cycle_witness :
    nextStatus "blocked" = "todo" ∧
    validStatus (⟨"t1", "in-progress"⟩ : TaskRec).status = true :=
  ⟨taskStatus_cycle.2.1 "blocked" (by decide) (by decide),
    taskStatus_cycle.2.2.2 [⟨"t1", "todo"⟩] ⟨"t1", "todo"⟩ (by decide)
      ⟨"t1", "in-progress"⟩ (by decide)⟩

/-- C8: the change-password mutation checks the length and confirmation
preconditions before any remote call: when a check fails it returns the
local validation message and leaves the remote auth state (including its
round-trip count) unchanged, for any remote behaviour `upd`; only when
both checks pass does it run the remote update. -/
theorem changePassword_preconditions
    (upd : String → AuthRemote → Except String Unit × AuthRemote)
    (np cp : String) (st : AuthRemote) :
    (np.length < 6 →
      changePasswordMutationFn upd np cp st
        = (.error "Password must be at least 6 characters", st)) ∧
    (¬ np.length < 6 → np ≠ cp →
      changePasswordMutationFn upd np cp st = (.error "Passwords do not match", st)) ∧
    (¬ np.length < 6 → np = cp →
      changePasswordMutationFn upd np cp st = upd np st) := by
  refine ⟨?_, ?_, ?_⟩
  · intro h1
    simp [changePasswordMutationFn, h1]
  · intro h1 h2
    simp [changePasswordMutationFn, h1, h2]
  · intro h1 h2
    subst h2
    simp [changePasswordMutationFn, h1]

/-- C8, witness: a 3-character password is rejected locally with the
remote state untouched. -/
theorem changePassword_preconditions_witness :
    ("abc" : String).length < 6 ∧
    changePasswordMutationFn authUpdateUser "abc" "abc" ⟨"old", 0⟩
      = (.error "Password must be at least 6 characters", ⟨"old", 0⟩) :=
  ⟨by decide,
    (changePassword_preconditions authUpdateUser "abc" "abc" ⟨"old", 0⟩).1 (by decide)⟩

set_option maxRecDepth 8000 in
/-- C2, counterexample: the search never trims the term.  The raw term
`"m "` has 2 characters, so the guard passes although the trimmed term has
only 1; against a store holding the grocery item `team work` the search
returns a non-empty result, refuting "empty result regardless of the
underlying data" for terms short after trimming. -/
theorem searchShortTerm_counterexample :
    (trimStr "m ").length < 2 ∧ ("m " : String).length = 2 ∧
    searchQueryFn rawFmt "h1" "m " dbTeamWork
      = [⟨"i1", "grocery", "team work", none, none, none⟩] ∧
    searchQueryFn rawFmt "h1" "m " dbTeamWork ≠ [] :=
  ⟨by decide, by decide, by decide, by decide⟩

/-- C2, amended: the search is a no-op returning the empty list whenever
the *raw* term (no trimming is applied) has fewer than 2 characters; in
particular any 1-character raw term yields the empty list regardless of
the underlying data. -/
theorem searchShortTerm (fmt : DateFmt) (hid term : String) (db : RemoteDB)
    (h : term.length < 2) : searchQueryFn fmt hid term db = [] := by
  simp [searchQueryFn, h]

/-- C2, witness: a 1-character term yields the empty list on a store with
data. -/
theorem searchShortTerm_witness :
    ("m" : String).length < 2 ∧ searchQueryFn rawFmt "h1" "m" dbTeamWork = [] :=
  ⟨by decide, searchShortTerm rawFmt "h1" "m" dbTeamWork (by decide)⟩

set_option maxRecDepth 8000 in
/-- C3, counterexample: a failed sub-collection fetch does not abort the
search.  With both grocery fetches failing and the notes fetch succeeding,
the search still returns the matching note: the caller receives partial
results, not a failure. -/
theorem searchPartialFailure_counterexample :
    searchQueryFn rawFmt "h1" "mi" dbGroceryDown
      = [⟨"n1", "note", "get milk", some "2024-01-01", some "2024-01-01", none⟩] ∧
    searchQueryFn rawFmt "h1" "mi" dbGroceryDown ≠ [] :=
  ⟨by decide, by decide⟩

/-- C3, amended: the search destructures only `data` from each fetch and
guards on null, so a failed sub-collection fetch contributes exactly zero
results — it behaves like a successful fetch of an empty collection — and
the other collections' results are returned unchanged. -/
theorem searchPartialFailure (fmt : DateFmt) (hid term : String) (db : RemoteDB)
    (msg : String) :
    searchQueryFn fmt hid term { db with lists := .error msg }
        = searchQueryFn fmt hid term { db with lists := .ok [] } ∧
    searchQueryFn fmt hid term { db with listItems := .error msg }
        = searchQueryFn fmt hid term { db with listItems := .ok [] } ∧
    searchQueryFn fmt hid term { db with notes := .error msg }
        = searchQueryFn fmt hid term { db with notes := .ok [] } ∧
    searchQueryFn fmt hid term { db with events := .error msg }
        = searchQueryFn fmt hid term { db with events := .ok [] } ∧
    searchQueryFn fmt hid term { db with tasks := .error msg }
        = searchQueryFn fmt hid term { db with tasks := .ok [] } := by
  obtain ⟨ls, li, ns, es, tk⟩ := db
  refine ⟨rfl, ?_, rfl, rfl, rfl⟩
  simp only [searchQueryFn, groceryResults, noteResults, eventResults, taskResults, sbData]
  cases hls : ls with
  | error e => rfl
  | ok rows =>
    cases htk1 : (rows.filter
        (fun l => l.householdId == hid && l.type == "grocery")).take 1 with
    | nil => rfl
    | cons l rest => rfl

/-! ## Search aggregation lemmas (C7) -/

theorem groceryResults_type (hid term : String) (db : RemoteDB) :
    ∀ r ∈ groceryResults hid term db, r.type = "grocery" := by
  intro r hr
  simp only [groceryResults] at hr
  cases hls : db.lists with
  | error e => rw [hls] at hr; simp [sbData] at hr
  | ok rows =>
    rw [hls] at hr
    simp only [sbData] at hr
    cases h1 : (rows.filter (fun l => l.householdId == hid && l.type == "grocery")).take 1 with
    | nil => rw [h1] at hr; simp at hr
    | cons l rest =>
      rw [h1] at hr
      cases hli : db.listItems with
      | error e => rw [hli] at hr; simp [sbData] at hr
      | ok items =>
        rw [hli] at hr
        simp only [sbData] at hr
        obtain ⟨it, _, hmk⟩ := List.mem_map.mp hr
        rw [← hmk]

theorem noteResults_type (fmt : DateFmt) (hid term : String) (db : RemoteDB) :
    ∀ r ∈ noteResults fmt hid term db, r.type = "note" := by
  intro r hr
  simp only [noteResults] at hr
  cases hns : db.notes with
  | error e => rw [hns] at hr; simp [sbData] at hr
  | ok ns =>
    rw [hns] at hr
    simp only [sbData] at hr
    obtain ⟨n, _, hmk⟩ := List.mem_map.mp hr
    rw [← hmk]

theorem eventResults_type (fmt : DateFmt) (hid term : String) (db : RemoteDB) :
    ∀ r ∈ eventResults fmt hid term db, r.type = "event" := by
  intro r hr
  simp only [eventResults] at hr
  cases hes : db.events with
  | error e => rw [hes] at hr; simp [sbData] at hr
  | ok es =>
    rw [hes] at hr
    simp only [sbData] at hr
    obtain ⟨e, _, hmk⟩ := List.mem_map.mp hr
    rw [← hmk]

theorem taskResults_type (fmt : DateFmt) (hid term : String) (db : RemoteDB) :
    ∀ r ∈ taskResults fmt hid term db, r.type = "task" := by
  intro r hr
  simp only [taskResults] at hr
  cases htk : db.tasks with
  | error e => rw [htk] at hr; simp [sbData] at hr
  | ok ts =>
    rw [htk] at hr
    simp only [sbData] at hr
    obtain ⟨t, _, hmk⟩ := List.mem_map.mp hr
    rw [← hmk]

theorem groceryResults_length (hid term : String) (db : RemoteDB) :
    (groceryResults hid term db).length ≤ 5 := by
  simp only [groceryResults]
  cases hls : db.lists with
  | error e => simp [sbData]
  | ok rows =>
    simp only [sbData]
    cases h1 : (rows.filter (fun l => l.householdId == hid && l.type == "grocery")).take 1 with
    | nil => simp
    | cons l rest =>
      cases hli : db.listItems with
      | error e => simp [sbData]
      | ok items =>
        simp only [sbData, List.length_map]
        exact List.length_take_le 5 _

theorem noteResults_length (fmt : DateFmt) (hid term : String) (db : RemoteDB) :
    (noteResults fmt hid term db).length ≤ 5 := by
  simp only [noteResults]
  cases hns : db.notes with
  | error e => simp [sbData]
  | ok ns =>
    simp only [sbData, List.length_map]
    exact List.length_take_le 5 _

theorem eventResults_length (fmt : DateFmt) (hid term : String) (db : RemoteDB) :
    (eventResults fmt hid term db).length ≤ 5 := by
  simp only [eventResults]
  cases hes : db.events with
  | error e => simp [sbData]
  | ok es =>
    simp only [sbData, List.length_map]
    exact List.length_take_le 5 _

theorem taskResults_length (fmt : DateFmt) (hid term : String) (db : RemoteDB) :
    (taskResults fmt hid term db).length ≤ 5 := by
  simp only [taskResults]
  cases htk : db.tasks with
  | error e => simp [sbData]
  | ok ts =>
    simp only [sbData, List.length_map]
    exact List.length_take_le 5 _

theorem groceryResults_sound (hid term : String) (db : RemoteDB)
    (li : List GroceryRow) (hli : db.listItems = .ok li) :
    ∀ r ∈ groceryResults hid term db,
      ∃ it ∈ li, containsCI term it.text = true ∧ r.id = it.id ∧ r.title = it.text := by
  intro r hr
  simp only [groceryResults] at hr
  cases hls : db.lists with
  | error e => rw [hls] at hr; simp [sbData] at hr
  | ok rows =>
    rw [hls] at hr
    simp only [sbData] at hr
    cases h1 : (rows.filter (fun l => l.householdId == hid && l.type == "grocery")).take 1 with
    | nil => rw [h1] at hr; simp at hr
    | cons l rest =>
      rw [h1, hli] at hr
      simp only [sbData] at hr
      obtain ⟨it, hit, hmk⟩ := List.mem_map.mp hr
      have hit' := List.mem_filter.mp (List.mem_of_mem_take hit)
      have hcond := hit'.2
      simp only [Bool.and_eq_true] at hcond
      exact ⟨it, hit'.1, hcond.2, by rw [← hmk], by rw [← hmk]⟩

theorem noteResults_sound (fmt : DateFmt) (hid term : String) (db : RemoteDB)
    (ns : List NoteRow) (hns : db.notes = .ok ns) :
    ∀ r ∈ noteResults fmt hid term db,
      ∃ n ∈ ns, n.householdId = hid ∧ containsCI term n.content = true ∧ r.id = n.id := by
  intro r hr
  simp only [noteResults, hns, sbData] at hr
  obtain ⟨n, hn, hmk⟩ := List.mem_map.mp hr
  have hn' := List.mem_filter.mp (List.mem_of_mem_take hn)
  have hcond := hn'.2
  simp only [Bool.and_eq_true, beq_iff_eq] at hcond
  exact ⟨n, hn'.1, hcond.1, hcond.2, by rw [← hmk]⟩

theorem eventResults_sound (fmt : DateFmt) (hid term : String) (db : RemoteDB)
    (es : List EventRow) (hes : db.events = .ok es) :
    ∀ r ∈ eventResults fmt hid term db,
      ∃ e ∈ es, e.householdId = hid ∧ containsCI term e.title = true ∧
        r.id = e.id ∧ r.title = e.title := by
  intro r hr
  simp only [eventResults, hes, sbData] at hr
  obtain ⟨e, he, hmk⟩ := List.mem_map.mp hr
  have he' := List.mem_filter.mp (List.mem_of_mem_take he)
  have hcond := he'.2
  simp only [Bool.and_eq_true, beq_iff_eq] at hcond
  exact ⟨e, he'.1, hcond.1, hcond.2, by rw [← hmk], by rw [← hmk]⟩

theorem taskResults_sound (fmt : DateFmt) (hid term : String) (db : RemoteDB)
    (tk : List TaskRow) (htk : db.tasks = .ok tk) :
    ∀ r ∈ taskResults fmt hid term db,
      ∃ t ∈ tk, t.householdId = hid ∧ containsCI term t.title = true ∧
        r.id = t.id ∧ r.title = t.title := by
  intro r hr
  simp only [taskResults, htk, sbData] at hr
  obtain ⟨t, ht, hmk⟩ := List.mem_map.mp hr
  have ht' := List.mem_filter.mp (List.mem_of_mem_take ht)
  have hcond := ht'.2
  simp only [Bool.and_eq_true, beq_iff_eq] at hcond
  exact ⟨t, ht'.1, hcond.1, hcond.2, by rw [← hmk], by rw [← hmk]⟩

theorem filter_type_eq_nil (l : List SearchResult) (c c' : String)
    (h : ∀ r ∈ l, r.type = c) (hne : ¬ (c == c') = true) :
    l.filter (·.type == c') = [] := by
  rw [List.filter_eq_nil_iff]
  intro r hr
  rw [h r hr]
  exact hne

theorem pairwise_rank_const (l : List SearchResult) (c : String)
    (h : ∀ r ∈ l, r.type = c) :
    (l.map (·.type)).Pairwise (fun a b => typeRank a ≤ typeRank b) := by
  induction l with
  | nil => simp
  | cons x xs ih =>
    simp only [List.map_cons]
    refine List.Pairwise.cons ?_ (ih (fun r hr => h r (List.mem_cons_of_mem x hr)))
    intro b hb
    obtain ⟨y, hy, hyb⟩ := List.mem_map.mp hb
    rw [h x (List.mem_cons_self x xs), ← hyb, h y (List.mem_cons_of_mem x hy)]

/-- C7: for every term of length at least 2 against fixed data with all
fetches succeeding, the search result is the concatenation, in the fixed
order grocery, notes, events, tasks, of the case-insensitive substring
matches of each collection, each collection contributing at most 5
results; result kinds appear in that fixed rank order, every result is
backed by a matching stored row of its collection, and re-running the
search on the same data returns the identical list. -/
theorem searchAggregation (fmt : DateFmt) (hid term : String) (db : RemoteDB)
    (ls : List ListRow) (li : List GroceryRow) (ns : List NoteRow)
    (es : List EventRow) (tk : List TaskRow)
    (hls : db.lists = .ok ls) (hli : db.listItems = .ok li)
    (hns : db.notes = .ok ns) (hes : db.events = .ok es) (htk : db.tasks = .ok tk)
    (hlen : 2 ≤ term.length) :
    searchQueryFn fmt hid term db
        = groceryResults hid term db ++ noteResults fmt hid term db
          ++ eventResults fmt hid term db ++ taskResults fmt hid term db ∧
    ((searchQueryFn fmt hid term db).map (·.type)).Pairwise
      (fun a b => typeRank a ≤ typeRank b) ∧
    ((searchQueryFn fmt hid term db).filter (·.type == "grocery")).length ≤ 5 ∧
    ((searchQueryFn fmt hid term db).filter (·.type == "note")).length ≤ 5 ∧
    ((searchQueryFn fmt hid term db).filter (·.type == "event")).length ≤ 5 ∧
    ((searchQueryFn fmt hid term db).filter (·.type == "task")).length ≤ 5 ∧
    (∀ r ∈ searchQueryFn fmt hid term db,
      (r.type = "grocery" →
        ∃ it ∈ li, containsCI term it.text = true ∧ r.id = it.id ∧ r.title = it.text) ∧
      (r.type = "note" →
        ∃ n ∈ ns, n.householdId = hid ∧ containsCI term n.content = true ∧ r.id = n.id) ∧
      (r.type = "event" →
        ∃ e ∈ es, e.householdId = hid ∧ containsCI term e.title = true ∧
          r.id = e.id ∧ r.title = e.title) ∧
      (r.type = "task" →
        ∃ t ∈ tk, t.householdId = hid ∧ containsCI term t.title = true ∧
          r.id = t.id ∧ r.title = t.title)) ∧
    searchQueryFn fmt hid term db = searchQueryFn fmt hid term db := by
  have hsplit : searchQueryFn fmt hid term db
      = groceryResults hid term db ++ noteResults fmt hid term db
        ++ eventResults fmt hid term db ++ taskResults fmt hid term db := by
    simp only [searchQueryFn]
    rw [if_neg (by omega)]
  have htg := groceryResults_type hid term db
  have htn := noteResults_type fmt hid term db
  have hte := eventResults_type fmt hid term db
  have htt := taskResults_type fmt hid term db
  refine ⟨hsplit, ?_, ?_, ?_, ?_, ?_, ?_, rfl⟩
  · rw [hsplit, List.map_append, List.map_append, List.map_append,
      List.append_assoc, List.append_assoc]
    refine List.pairwise_append.mpr ⟨pairwise_rank_const _ _ htg,
      List.pairwise_append.mpr ⟨pairwise_rank_const _ _ htn,
        List.pairwise_append.mpr ⟨pairwise_rank_const _ _ hte,
          pairwise_rank_const _ _ htt, ?_⟩, ?_⟩, ?_⟩
    · intro a ha b hb
      obtain ⟨x, hx, hxa⟩ := List.mem_map.mp ha
      obtain ⟨y, hy, hyb⟩ := List.mem_map.mp hb
      rw [← hxa, ← hyb, hte x hx, htt y hy]
      decide
    · intro a ha b hb
      obtain ⟨x, hx, hxa⟩ := List.mem_map.mp ha
      rw [← hxa, htn x hx]
      rcases List.mem_append.mp hb with hbl | hbr
      · obtain ⟨y, hy, hyb⟩ := List.mem_map.mp hbl
        rw [← hyb, hte y hy]
        decide
      · obtain ⟨y, hy, hyb⟩ := List.mem_map.mp hbr
        rw [← hyb, htt y hy]
        decide
    · intro a ha b hb
      obtain ⟨x, hx, hxa⟩ := List.mem_map.mp ha
      rw [← hxa, htg x hx]
      have h0 : typeRank "grocery" = 0 := by decide
      rw [h0]
      exact Nat.zero_le _
  · rw [hsplit, List.filter_append, List.filter_append, List.filter_append,
      filter_type_eq_nil _ _ "grocery" htn (by decide),
      filter_type_eq_nil _ _ "grocery" hte (by decide),
      filter_type_eq_nil _ _ "grocery" htt (by decide)]
    simp only [List.append_nil]
    exact Nat.le_trans (List.length_filter_le _ _) (groceryResults_length hid term db)
  · rw [hsplit, List.filter_append, List.filter_append, List.filter_append,
      filter_type_eq_nil _ _ "note" htg (by decide),
      filter_type_eq_nil _ _ "note" hte (by decide),
      filter_type_eq_nil _ _ "note" htt (by decide)]
    simp only [List.append_nil, List.nil_append]
    exact Nat.le_trans (List.length_filter_le _ _) (noteResults_length fmt hid term db)
  · rw [hsplit, List.filter_append, List.filter_append, List.filter_append,
      filter_type_eq_nil _ _ "event" htg (by decide),
      filter_type_eq_nil _ _ "event" htn (by decide),
      filter_type_eq_nil _ _ "event" htt (by decide)]
    simp only [List.append_nil, List.nil_append]
    exact Nat.le_trans (List.length_filter_le _ _) (eventResults_length fmt hid term db)
  · rw [hsplit, List.filter_append, List.filter_append, List.filter_append,
      filter_type_eq_nil _ _ "task" htg (by decide),
      filter_type_eq_nil _ _ "task" htn (by decide),
      filter_type_eq_nil _ _ "task" hte (by decide)]
    simp only [List.nil_append]
    exact Nat.le_trans (List.length_filter_le _ _) (taskResults_length fmt hid term db)
  · intro r hr
    rw [hsplit, List.append_assoc, List.append_assoc] at hr
    have hgr := groceryResults_sound hid term db li hli
    have hnr := noteResults_sound fmt hid term db ns hns
    have her := eventResults_sound fmt hid term db es hes
    have htr := taskResults_sound fmt hid term db tk htk
    rcases List.mem_append.mp hr with hr1 | hr234
    · exact ⟨fun _ => hgr r hr1,
        fun h => absurd (h.symm.trans (htg r hr1)) (by decide),
        fun h => absurd (h.symm.trans (htg r hr1)) (by decide),
        fun h => absurd (h.symm.trans (htg r hr1)) (by decide)⟩
    rcases List.mem_append.mp hr234 with hr2 | hr34
    · exact ⟨fun h => absurd (h.symm.trans (htn r hr2)) (by decide),
        fun _ => hnr r hr2,
        fun h => absurd (h.symm.trans (htn r hr2)) (by decide),
        fun h => absurd (h.symm.trans (htn r hr2)) (by decide)⟩
    rcases List.mem_append.mp hr34 with hr3 | hr4
    · exact ⟨fun h => absurd (h.symm.trans (hte r hr3)) (by decide),
        fun h => absurd (h.symm.trans (hte r hr3)) (by decide),
        fun _ => her r hr3,
        fun h => absurd (h.symm.trans (hte r hr3)) (by decide)⟩
    · exact ⟨fun h => absurd (h.symm.trans (htt r hr4)) (by decide),
        fun h => absurd (h.symm.trans (htt r hr4)) (by decide),
        fun h => absurd (h.symm.trans (htt r hr4)) (by decide),
        fun _ => htr r hr4⟩

/-- C7, witness at a concrete term and store with all fetches succeeding. -/
theorem searchAggregation_witness :
    2 ≤ ("mi" : String).length ∧
    searchQueryFn rawFmt "h1" "mi" dbTeamWork
      = groceryResults "h1" "mi" dbTeamWork ++ noteResults rawFmt "h1" "mi" dbTeamWork
        ++ eventResults rawFmt "h1" "mi" dbTeamWork
        ++ taskResults rawFmt "h1" "mi" dbTeamWork ∧
    ((searchQueryFn rawFmt "h1" "mi" dbTeamWork).filter (·.type == "note")).length ≤ 5 :=
  ⟨by decide,
    (searchAggregation rawFmt "h1" "mi" dbTeamWork _ _ _ _ _
      rfl rfl rfl rfl rfl (by decide)).1,
    (searchAggregation rawFmt "h1" "mi" dbTeamWork _ _ _ _ _
      rfl rfl rfl rfl rfl (by decide)).2.2.2.1⟩
